import Mathlib

/-!
Shallow embedding of the `fe` front-end toolkit (leissa/fe) for checking its
specification: the page-based `Arena` allocator (`include/fe/arena.h`), the
`Sym`/`SymPool` string interner (`include/fe/sym.h`), the lookahead `Ring`
buffer (`include/fe/ring.h`), the UTF-8 codec (`include/fe/utf8.h`) and the
`Lexer` blueprint (`include/fe/lexer.h`).

Modelling conventions, fixed once for the whole file:
* target platform is the primary 64-bit little-endian one (x86-64 SysV):
  `uintptr_t`/`size_t` are 64 bits wide, `char` is signed, so the conversion
  `uintptr_t(char)` sign-extends byte values `>= 0x80`;
* machine integers are `Nat` with an explicit `% 2^64` (resp. `% 2^32` for
  `char32_t`) wherever the C++ arithmetic can wrap;
* strings are byte lists (`List Nat`, entries `< 256`);
* memory addresses: the arena never exposes raw addresses except through
  `SymPool`.  An allocation is identified by the pair (page index, offset) it
  came from; the start addresses of the distinct pages obtained from
  `operator new[](size, align_val_t(align))` are abstracted as a parameter
  `base : Nat → Nat`.  Theorems that need facts about addresses take the
  corresponding hypotheses (pages live at distinct, nonzero, 8-aligned
  addresses); witnesses instantiate `base` concretely.
-/

/-! ### Arena (`include/fe/arena.h`) -/

/-- One `Arena::Page`: its `size` and `align`; the `buffer` address is
abstracted away (see the header comment). -/
structure PageS where
  size : Nat
  align : Nat
deriving DecidableEq

/-- `fe::Arena`: the list of filled pages (`older`), the currently open page
`pages_.back()` (`back`), `page_size_` and `index_`.  The C++ `pages_` list is
`older ++ [back]`. -/
structure ArenaS where
  older : List PageS
  back : PageS
  pageSize : Nat
  index : Nat
deriving DecidableEq

/-- `Arena::Arena(page_size)`: starts with the single default-constructed
`Page{}` of size 0. -/
def arenaNew (pageSize : Nat) : ArenaS :=
  ⟨[], ⟨0, 0⟩, pageSize, 0⟩

/-- `Arena::align(i, a) = (i + (a - 1)) & ~(a - 1)` on 64-bit `size_t`:
`~(a-1)` is the mask `2^64 - a`, and the sum wraps mod `2^64`. -/
def alignC (i a : Nat) : Nat :=
  ((i + (a - 1)) % 2 ^ 64) &&& (2 ^ 64 - a)

/-- `Arena::allocate(num_bytes, align)`.  Returns the new arena state and
`none` for the `nullptr` result of a zero-byte request, otherwise
`some (page index, offset)` identifying the returned address
`pages_.back().buffer + index_`.  Mirrors the source: the fit check
`index_ + num_bytes > pages_.back().size` (wrapping `size_t` sum) happens
before the in-page `align`; a fresh page has size `max(page_size_, num_bytes)`
and restarts at offset 0. -/
def allocateS (ar : ArenaS) (numBytes align : Nat) : ArenaS × Option (Nat × Nat) :=
  if numBytes = 0 then (ar, none)
  else
    let ar1 : ArenaS :=
      if (ar.index + numBytes) % 2 ^ 64 > ar.back.size then
        ⟨ar.older ++ [ar.back], ⟨max ar.pageSize numBytes, align⟩, ar.pageSize, 0⟩
      else
        ⟨ar.older, ar.back, ar.pageSize, alignC ar.index align⟩
    (⟨ar1.older, ar1.back, ar1.pageSize, (ar1.index + numBytes) % 2 ^ 64⟩,
      some (ar1.older.length, ar1.index))

/-- `Arena::state() = {pages_.size(), index_}`. -/
def stateS (ar : ArenaS) : Nat × Nat :=
  (ar.older.length + 1, ar.index)

/-- `Arena::deallocate(State)`: rewinds `index_` to the captured offset if the
page count is unchanged, otherwise sets `index_ = 0`. -/
def deallocS (ar : ArenaS) (st : Nat × Nat) : ArenaS :=
  if st.1 = ar.older.length + 1 then ⟨ar.older, ar.back, ar.pageSize, st.2⟩
  else ⟨ar.older, ar.back, ar.pageSize, 0⟩

/-! ### Sym / SymPool (`include/fe/sym.h`) -/

/-- `Sym::Short_String_Bytes = sizeof(uintptr_t)`. -/
def shortStringBytes : Nat := 8

/-- The value of `uintptr_t(s[i])` for a byte `b`: `char` is signed on the
modelled platform, so bytes `>= 0x80` sign-extend to `2^64 - 256 + b`. -/
def u64ofChar (b : Nat) : Nat :=
  if b < 128 then b else 2 ^ 64 - 256 + b

/-- The little-endian packing loop of `SymPool::sym`:
`ptr |= (uintptr_t(s[i]) << shift)` for `shift = 8, 16, ...`. -/
def packShortAux : List Nat → Nat → Nat → Nat
  | [], _, ptr => ptr
  | b :: bs, shift, ptr =>
    packShortAux bs (shift + 8) (ptr ||| (u64ofChar b <<< shift) % 2 ^ 64)

/-- The inline `Sym` word built by `SymPool::sym` for a short string:
`ptr` starts as the size, then the bytes are or-ed in at shifts 8, 16, .... -/
def packShort (s : List Nat) : Nat :=
  packShortAux s 8 s.length

/-- The inline branch of `Sym::view`: on little endian the text is the bytes
of the word at offsets `1 .. (ptr_ & Short_String_Mask)`. -/
def shortView (w : Nat) : List Nat :=
  (List.range (w &&& 7)).map fun i => (w >>> (8 * (i + 1))) % 256

/-- `fe::SymPool`: its string `Arena` (`strings_`) plus the dedup hash set
`pool_` together with the arena-resident `String` objects it points to: each
entry is (allocation location, string content).  (The separate `container_`
arena backing the hash set's own nodes plays no role in the claims and is not
modelled.) -/
structure PoolS where
  strings : ArenaS
  entries : List ((Nat × Nat) × List Nat)
deriving DecidableEq

/-- A default-constructed `SymPool`: a default `Arena`
(`Default_Page_Size` = 1MB) and an empty hash set. -/
def poolNew : PoolS :=
  ⟨arenaNew (1024 * 1024), []⟩

/-- `SymPool::sym(std::string_view)`.  Empty string: the zero `Sym`.  Short
string (`size <= Short_String_Bytes - 2`): the packed inline word, no
allocation.  Otherwise: capture the arena state, allocate
`sizeof(String) + size + 1` bytes aligned to `Short_String_Bytes`, write the
`String`, and `emplace` it into the content-keyed hash set; on a duplicate the
allocation is rolled back via `deallocate(state)` and the existing `String`'s
address is returned.  The returned `Sym` word of a heap string is the address
`base p + o` of its allocation `(p, o)`. -/
def symS (base : Nat → Nat) (P : PoolS) (s : List Nat) : PoolS × Nat :=
  if s = [] then (P, 0)
  else if s.length ≤ shortStringBytes - 2 then (P, packShort s)
  else
    let st := stateS P.strings
    let r := allocateS P.strings (8 + s.length + 1) shortStringBytes
    match r.2 with
    | none => (⟨r.1, P.entries⟩, 0)
    | some loc =>
      match P.entries.find? (fun e => e.2 == s) with
      | some e => (⟨deallocS r.1 st, P.entries⟩, base e.1.1 + e.1.2)
      | none => (⟨r.1, P.entries ++ [(loc, s)]⟩, base loc.1 + loc.2)

/-- `Sym::view()` of a word `w` produced by pool `P`: empty for the zero word,
the unpacked inline bytes when the low bits (`Short_String_Mask`) are nonzero,
otherwise the contents of the arena-resident `String` the address points to. -/
def viewS (base : Nat → Nat) (P : PoolS) (w : Nat) : List Nat :=
  if w = 0 then []
  else if w &&& 7 ≠ 0 then shortView w
  else
    match P.entries.find? (fun e => base e.1.1 + e.1.2 == w) with
    | some e => e.2
    | none => []

/-- `SymPool::sym(const char* s)`: `nullptr` (modelled as `none`) maps to the
default `Sym()`; otherwise `std::string_view(s)` takes the bytes up to the
first NUL. -/
def symCstrS (base : Nat → Nat) (P : PoolS) (s : Option (List Nat)) : PoolS × Nat :=
  match s with
  | none => (P, 0)
  | some cs => symS base P (cs.takeWhile fun b => b != 0)

/-! ### Ring (`include/fe/ring.h`) -/

/-- The generic `Ring<T, N>`: `array_` (as a total function, since a fresh
ring's contents are indeterminate) and the rotating origin `first_`. -/
structure RingG (α : Type) where
  arr : Nat → α
  first : Nat

/-- Generic `Ring::put`: returns `array_[first_]`, overwrites that slot, and
advances `first_` mod `N`. -/
def putG {α} (N : Nat) (r : RingG α) (x : α) : α × RingG α :=
  (r.arr r.first, ⟨fun j => if j = r.first then x else r.arr j, (r.first + 1) % N⟩)

/-- Generic `Ring::operator[](i) = array_[(first_ + i) % N]`. -/
def peekG {α} (N : Nat) (r : RingG α) (i : Nat) : α :=
  r.arr ((r.first + i) % N)

/-- Generic `Ring::front() = array_[first_]`. -/
def frontG {α} (r : RingG α) : α :=
  r.arr r.first

/-- The `Ring<T, 1>` specialization: a single field. -/
structure Ring1S (α : Type) where
  item : α

/-- `Ring<T, 1>::put`: swap the field. -/
def put1 {α} (r : Ring1S α) (x : α) : α × Ring1S α :=
  (r.item, ⟨x⟩)

/-- `Ring<T, 1>::operator[]`: returns `item_` (the index is only checked by a
debug assertion). -/
def peek1 {α} (r : Ring1S α) (_i : Nat) : α :=
  r.item

/-- `Ring<T, 1>::front()`. -/
def front1 {α} (r : Ring1S α) : α :=
  r.item

/-- The `Ring<T, 2>` specialization: two direct fields `array_[0]`,
`array_[1]`. -/
structure Ring2S (α : Type) where
  a0 : α
  a1 : α

/-- `Ring<T, 2>::put`: `res = array_[0]; array_[0] = array_[1];
array_[1] = item`. -/
def put2 {α} (r : Ring2S α) (x : α) : α × Ring2S α :=
  (r.a0, ⟨r.a1, x⟩)

/-- `Ring<T, 2>::operator[](i) = array_[i]` (direct, no modulus). -/
def peek2 {α} (r : Ring2S α) (i : Nat) : α :=
  if i = 0 then r.a0 else r.a1

/-- `Ring<T, 2>::front() = array_[0]`. -/
def front2 {α} (r : Ring2S α) : α :=
  r.a0

/-- Run a sequence of `put`s on the generic ring, collecting the evicted
values. -/
def putsG {α} (N : Nat) (g : RingG α) : List α → RingG α × List α
  | [] => (g, [])
  | x :: xs =>
    let p := putG N g x
    let q := putsG N p.2 xs
    (q.1, p.1 :: q.2)

/-- Run a sequence of `put`s on the `K = 1` specialization. -/
def puts1 {α} (r : Ring1S α) : List α → Ring1S α × List α
  | [] => (r, [])
  | x :: xs =>
    let p := put1 r x
    let q := puts1 p.2 xs
    (q.1, p.1 :: q.2)

/-- Run a sequence of `put`s on the `K = 2` specialization. -/
def puts2 {α} (r : Ring2S α) : List α → Ring2S α × List α
  | [] => (r, [])
  | x :: xs =>
    let p := put2 r x
    let q := puts2 p.2 xs
    (q.1, p.1 :: q.2)

/-- Simulation relation between a `Ring<T, 1>` and a generic ring with
`N = 1` holding the same element contents. -/
def equiv1 {α} (r : Ring1S α) (g : RingG α) : Prop :=
  g.first = 0 ∧ r.item = g.arr 0

/-- Simulation relation between a `Ring<T, 2>` and a generic ring with
`N = 2` holding the same element contents in logical order. -/
def equiv2 {α} (r : Ring2S α) (g : RingG α) : Prop :=
  g.first < 2 ∧ r.a0 = g.arr g.first ∧ r.a1 = g.arr ((g.first + 1) % 2)

/-! ### UTF-8 codec (`include/fe/utf8.h`) -/

/-- `utf8::EoF = (char32_t)std::istream::traits_type::eof() = 0xFFFFFFFF`. -/
def EoFv : Nat := 4294967295

/-- `utf8::BOM = 0xfeff`. -/
def BOMv : Nat := 0xfeff

/-- `'\n'`. -/
def NLv : Nat := 10

/-- `utf8::num_bytes(char8_t)`: expected sequence length from the first
byte's high bits, 0 if invalid. -/
def numBytes (c : Nat) : Nat :=
  if c &&& 0x80 = 0 then 1
  else if c &&& 0xe0 = 0xc0 then 2
  else if c &&& 0xf0 = 0xe0 then 3
  else if c &&& 0xf8 = 0xf0 then 4
  else 0

/-- `utf8::append(c, b) = (c << 6) | (b & 0b00111111)` on `char32_t`. -/
def appendB (c b : Nat) : Nat :=
  ((c <<< 6) % 2 ^ 32) ||| (b &&& 0x3f)

/-- `utf8::first(c, num) = c & (0b00011111 >> (num - 2))`. -/
def firstB (c num : Nat) : Nat :=
  c &&& (0x1f >>> (num - 2))

/-- `is.get()` as `char32_t`: the next byte, or `EoF` when the stream is
exhausted. -/
def get8 : List Nat → Nat × List Nat
  | [] => (EoFv, [])
  | b :: r => (b % 256, r)

/-- The continuation-byte loop of `utf8::decode`: each further byte must
match `10xxxxxx` (`is_valid234`), else the decode aborts with `0`. -/
def contB : Nat → Nat → List Nat → Nat × List Nat
  | c, 0, s => (c, s)
  | c, k + 1, s =>
    let p := get8 s
    let b8 := p.1 % 256
    let x := if b8 &&& 0xc0 = 0x80 then b8 &&& 0x3f else 0xff
    if x ≠ 0xff then contB (appendB c x) k p.2 else (0, p.2)

/-- `utf8::decode(istream&)`: returns the decoded code point (`EoF` at end of
stream, `0` = `Null` on an invalid sequence) and the rest of the stream. -/
def decodeS (s : List Nat) : Nat × List Nat :=
  let p := get8 s
  if p.1 = EoFv then (p.1, p.2)
  else
    match numBytes (p.1 % 256) with
    | 0 => (0, p.2)
    | 1 => (p.1, p.2)
    | n => contB (firstB p.1 n) (n - 1) p.2

/-- `utf8::encode(ostream&, c32)`: the emitted byte sequence and the success
flag (`false`, nothing written, for code points above `0x10FFFF`). -/
def encodeS (c : Nat) : List Nat × Bool :=
  if c ≤ 0x7f then ([c &&& 0xff], true)
  else if c ≤ 0x7ff then
    ([((c >>> 6) &&& 0x1f) ||| 0xc0, (c &&& 0x3f) ||| 0x80], true)
  else if c ≤ 0xffff then
    ([((c >>> 12) &&& 0xf) ||| 0xe0, ((c >>> 6) &&& 0x3f) ||| 0x80,
      (c &&& 0x3f) ||| 0x80], true)
  else if c ≤ 0x10ffff then
    ([((c >>> 18) &&& 0x7) ||| 0xf0, ((c >>> 12) &&& 0x3f) ||| 0x80,
      ((c >>> 6) &&& 0x3f) ||| 0x80, (c &&& 0x3f) ||| 0x80], true)
  else ([], false)

/-! ### Lexer (`include/fe/lexer.h`) -/

/-- `fe::Pos`: 1-based row/column, `uint16_t` fields. -/
structure PosS where
  row : Nat
  col : Nat
deriving DecidableEq

/-- `++` on a `uint16_t` field. -/
def u16inc (x : Nat) : Nat :=
  (x + 1) % 65536

/-- The state of `fe::Lexer<K, S>`: the remaining input bytes (`istream_`),
the lookahead ring `ahead_`, the in-progress location `loc_` (begin/finis;
the path pointer is irrelevant to the claims), the peek position `peek_`, and
the lexeme accumulator `str_` (a byte list: `str_ += c` narrows the
`char32_t` to `char`). -/
structure LexerS where
  stream : List Nat
  ahead : RingG Nat
  locBegin : PosS
  locFinis : PosS
  peek : PosS
  str : List Nat

/-- `Lexer::next()`: sets `loc_.finis = peek_`, pushes one freshly decoded
code point into the ring (the evicted old front is the result), then advances
`peek_` according to the ring's new front `c`: `'\n'` bumps the row and
zeroes the column, `EoF` and `BOM` leave it unchanged, anything else bumps
the column. -/
def nextS (K : Nat) (L : LexerS) : Nat × LexerS :=
  let finis := L.peek
  let d := decodeS L.stream
  let p := putG K L.ahead d.1
  let c := frontG p.2
  let peek1 :=
    if c = NLv then ⟨u16inc L.peek.row, 0⟩
    else if c = EoFv ∨ c = BOMv then L.peek
    else ⟨L.peek.row, u16inc L.peek.col⟩
  (p.1, ⟨d.2, p.2, L.locBegin, finis, peek1, L.str⟩)

/-- `Lexer::accept<Append::On>(pred)`: if `pred(ahead())` holds, consume one
code point via `next()` and append it (narrowed to `char`) to `str_`. -/
def acceptS (K : Nat) (pred : Nat → Bool) (L : LexerS) : Bool × LexerS :=
  if pred (peekG K L.ahead 0) then
    let q := nextS K L
    (true, ⟨q.2.stream, q.2.ahead, q.2.locBegin, q.2.locFinis, q.2.peek,
      q.2.str ++ [q.1 % 256]⟩)
  else (false, L)

/-- The priming loop of the `Lexer` constructor:
`for (i = 0; i != K; ++i) ahead_[i] = utf8::decode(istream_)` on a fresh ring
(`first_ = 0`; the indeterminate initial contents are modelled as 0, every
slot is overwritten). -/
def primeS (K : Nat) (s : List Nat) : RingG Nat × List Nat :=
  (List.range K).foldl
    (fun acc i =>
      let d := decodeS acc.2
      (⟨fun j => if j = (acc.1.first + i) % K then d.1 else acc.1.arr j, acc.1.first⟩,
        d.2))
    (⟨fun _ => 0, 0⟩, s)

/-- The `Lexer` constructor: `loc_(path, {0,0})`, `peek_(1,1)`, prime the
ring with `K` decoded code points, then `accept(utf8::BOM)`. -/
def lexInitS (K : Nat) (bytes : List Nat) : LexerS :=
  let pr := primeS K bytes
  let L0 : LexerS := ⟨pr.2, pr.1, ⟨0, 0⟩, ⟨0, 0⟩, ⟨1, 1⟩, []⟩
  (acceptS K (fun d => d == BOMv) L0).2

/-! ### Auxiliary definitions for the verification -/

/-- A concrete instance of the abstract page-base address map (used by
counterexamples and witnesses): page `p` lives at address `8 * (p + 1)` —
injective, 8-aligned, nonzero. -/
def base0 (p : Nat) : Nat := 8 * (p + 1)

/-- The value of a byte list laid out little-endian starting at byte
position `kk` (specification-side counterpart of the packing loop). -/
def sumB : List Nat → Nat → Nat
  | [], _ => 0
  | b :: bs, kk => b * 2 ^ (8 * kk) + sumB bs (kk + 1)

/-- A minimal well-formed lexer state (empty stream, `K = 1`), used to
instantiate the `next()` characterization. -/
def lexSmall : LexerS :=
  ⟨[], ⟨fun _ => 0, 0⟩, ⟨0, 0⟩, ⟨0, 0⟩, ⟨1, 1⟩, []⟩

/-! ### Helper lemmas -/

theorem peekG_zero {α} (K : Nat) (r : RingG α) (h : r.first < K) :
    peekG K r 0 = frontG r := by
  simp [peekG, frontG, Nat.mod_eq_of_lt h]

theorem putG_first_lt {α} (K : Nat) (r : RingG α) (x : α) (h : r.first < K) :
    (putG K r x).2.first < K := by
  have hK : 0 < K := Nat.pos_of_ne_zero (by omega)
  simp [putG]
  exact Nat.mod_lt _ hK

theorem put1_sim {α} (r : Ring1S α) (g : RingG α) (x : α) (h : equiv1 r g) :
    (put1 r x).1 = (putG 1 g x).1 ∧ equiv1 (put1 r x).2 (putG 1 g x).2 := by
  obtain ⟨h0, hi⟩ := h
  refine ⟨by simp [put1, putG, h0, hi], by simp [equiv1, put1, putG, h0], ?_⟩
  simp [put1, putG, h0]

theorem puts1_sim {α} (xs : List α) (r : Ring1S α) (g : RingG α) (h : equiv1 r g) :
    (puts1 r xs).2 = (putsG 1 g xs).2 ∧ equiv1 (puts1 r xs).1 (putsG 1 g xs).1 := by
  induction xs generalizing r g with
  | nil => exact ⟨rfl, h⟩
  | cons x xs ih =>
    obtain ⟨he, hs⟩ := put1_sim r g x h
    obtain ⟨ih1, ih2⟩ := ih (put1 r x).2 (putG 1 g x).2 hs
    exact ⟨by simp [puts1, putsG, he, ih1], by simpa [puts1, putsG] using ih2⟩

theorem put2_sim {α} (r : Ring2S α) (g : RingG α) (x : α) (h : equiv2 r g) :
    (put2 r x).1 = (putG 2 g x).1 ∧ equiv2 (put2 r x).2 (putG 2 g x).2 := by
  obtain ⟨hlt, h0, h1⟩ := h
  interval_cases hf : g.first <;>
    refine ⟨by simp [put2, putG, h0, hf], ?_, ?_, ?_⟩ <;>
    simp [put2, putG, h0, h1, hf, equiv2]

theorem puts2_sim {α} (xs : List α) (r : Ring2S α) (g : RingG α) (h : equiv2 r g) :
    (puts2 r xs).2 = (putsG 2 g xs).2 ∧ equiv2 (puts2 r xs).1 (putsG 2 g xs).1 := by
  induction xs generalizing r g with
  | nil => exact ⟨rfl, h⟩
  | cons x xs ih =>
    obtain ⟨he, hs⟩ := put2_sim r g x h
    obtain ⟨ih1, ih2⟩ := ih (put2 r x).2 (putG 2 g x).2 hs
    exact ⟨by simp [puts2, putsG, he, ih1], by simpa [puts2, putsG] using ih2⟩

theorem equiv1_peek {α} (r : Ring1S α) (g : RingG α) (h : equiv1 r g) (i : Nat) :
    peek1 r i = peekG 1 g i := by
  obtain ⟨h0, hi⟩ := h
  simp [peek1, peekG, hi, Nat.mod_one]

theorem equiv2_peek {α} (r : Ring2S α) (g : RingG α) (h : equiv2 r g) (i : Nat)
    (hilt : i < 2) : peek2 r i = peekG 2 g i := by
  obtain ⟨hlt, h0, h1⟩ := h
  interval_cases i <;> interval_cases hf : g.first <;>
    simp_all [peek2, peekG]

/-! ### Claim theorems -/

/-- C3 counterexample: capture the state, cross a page boundary, then
`deallocate(State)`.  The claim says the arena is left entirely
unchanged; in fact `index_` is reset from 16 to 0. -/
theorem C3_cex :
    (stateS (allocateS (arenaNew 16) 8 1).1).1 ≠
        (allocateS ((allocateS (arenaNew 16) 8 1).1) 16 1).1.older.length + 1 ∧
    (allocateS ((allocateS (arenaNew 16) 8 1).1) 16 1).1.index = 16 ∧
    deallocS (allocateS ((allocateS (arenaNew 16) 8 1).1) 16 1).1
        (stateS (allocateS (arenaNew 16) 8 1).1) ≠
      (allocateS ((allocateS (arenaNew 16) 8 1).1) 16 1).1 := by
  decide

/-- C3 (amended): if the captured page count differs from the current one,
`Arena::deallocate(State)` leaves the page list and page size unchanged but
resets the current offset to zero (so it is a no-op only when the offset is
already zero). -/
theorem C3_amended (ar : ArenaS) (st : Nat × Nat) (h : st.1 ≠ ar.older.length + 1) :
    deallocS ar st = ⟨ar.older, ar.back, ar.pageSize, 0⟩ := by
  simp [deallocS, h]

/-- C3 witness: the amended statement evaluated on the concrete
page-crossing scenario. -/
theorem C3_witness :
    (stateS (allocateS (arenaNew 16) 8 1).1).1 ≠
        (allocateS ((allocateS (arenaNew 16) 8 1).1) 16 1).1.older.length + 1 ∧
    deallocS (allocateS ((allocateS (arenaNew 16) 8 1).1) 16 1).1
        (stateS (allocateS (arenaNew 16) 8 1).1) =
      ⟨(allocateS ((allocateS (arenaNew 16) 8 1).1) 16 1).1.older,
        (allocateS ((allocateS (arenaNew 16) 8 1).1) 16 1).1.back,
        (allocateS ((allocateS (arenaNew 16) 8 1).1) 16 1).1.pageSize, 0⟩ :=
  ⟨by decide, C3_amended _ _ (by decide)⟩

/-- C5: for the generic `Ring` with `K = 3`, from a freshly constructed ring
(arbitrary initial slot contents `z1 z2 z3`, origin 0): after
`put(a); put(b); put(c)` the peeks are `a, b, c`; one further `put(d)` evicts
`a` and the peeks become `b, c, d`. -/
theorem C5_ring3_fifo {α : Type} (z1 z2 z3 a b c d : α) :
    peekG 3 (putsG 3 ⟨fun j => if j = 0 then z1 else if j = 1 then z2 else z3, 0⟩
        [a, b, c]).1 0 = a ∧
    peekG 3 (putsG 3 ⟨fun j => if j = 0 then z1 else if j = 1 then z2 else z3, 0⟩
        [a, b, c]).1 1 = b ∧
    peekG 3 (putsG 3 ⟨fun j => if j = 0 then z1 else if j = 1 then z2 else z3, 0⟩
        [a, b, c]).1 2 = c ∧
    (putG 3 (putsG 3 ⟨fun j => if j = 0 then z1 else if j = 1 then z2 else z3, 0⟩
        [a, b, c]).1 d).1 = a ∧
    peekG 3 (putG 3 (putsG 3 ⟨fun j => if j = 0 then z1 else if j = 1 then z2 else z3, 0⟩
        [a, b, c]).1 d).2 0 = b ∧
    peekG 3 (putG 3 (putsG 3 ⟨fun j => if j = 0 then z1 else if j = 1 then z2 else z3, 0⟩
        [a, b, c]).1 d).2 1 = c ∧
    peekG 3 (putG 3 (putsG 3 ⟨fun j => if j = 0 then z1 else if j = 1 then z2 else z3, 0⟩
        [a, b, c]).1 d).2 2 = d := by
  simp [putsG, putG, peekG]

/-- C6: the `K = 1` and `K = 2` specializations are behaviorally identical to
the generic modular-arithmetic ring: from states with equal element contents
(`equiv1`/`equiv2`), any sequence of `put`s yields the same evicted values,
and afterwards `front()` and `operator[](i)` (for `i < K`) agree — applying
the statement to every prefix gives the agreement at every step. -/
theorem C6_spec_equiv :
    (∀ (α : Type) (r : Ring1S α) (g : RingG α) (xs : List α), equiv1 r g →
      (puts1 r xs).2 = (putsG 1 g xs).2 ∧
      front1 (puts1 r xs).1 = frontG (putsG 1 g xs).1 ∧
      ∀ i, i < 1 → peek1 (puts1 r xs).1 i = peekG 1 (putsG 1 g xs).1 i) ∧
    (∀ (α : Type) (r : Ring2S α) (g : RingG α) (xs : List α), equiv2 r g →
      (puts2 r xs).2 = (putsG 2 g xs).2 ∧
      front2 (puts2 r xs).1 = frontG (putsG 2 g xs).1 ∧
      ∀ i, i < 2 → peek2 (puts2 r xs).1 i = peekG 2 (putsG 2 g xs).1 i) := by
  constructor
  · intro α r g xs h
    obtain ⟨h1, h2⟩ := puts1_sim xs r g h
    refine ⟨h1, ?_, fun i hilt => equiv1_peek _ _ h2 i⟩
    obtain ⟨h0, hi⟩ := h2
    simp [front1, frontG, h0, hi]
  · intro α r g xs h
    obtain ⟨h1, h2⟩ := puts2_sim xs r g h
    refine ⟨h1, ?_, fun i hilt => equiv2_peek _ _ h2 i hilt⟩
    have := equiv2_peek _ _ h2 0 (by omega)
    obtain ⟨hlt, h0, hh1⟩ := h2
    simpa [peek2, peekG, front2, frontG, Nat.mod_eq_of_lt hlt] using this

/-- C6 witness: the equivalence applied to concrete rings over `Nat` with
contents 0 and the put sequence `[1, 2, 3]`. -/
theorem C6_witness :
    equiv1 (⟨0⟩ : Ring1S Nat) ⟨fun _ => 0, 0⟩ ∧
    ((puts1 (⟨0⟩ : Ring1S Nat) [1, 2, 3]).2 =
        (putsG 1 (⟨fun _ => 0, 0⟩ : RingG Nat) [1, 2, 3]).2 ∧
      front1 (puts1 (⟨0⟩ : Ring1S Nat) [1, 2, 3]).1 =
        frontG (putsG 1 (⟨fun _ => 0, 0⟩ : RingG Nat) [1, 2, 3]).1 ∧
      ∀ i, i < 1 → peek1 (puts1 (⟨0⟩ : Ring1S Nat) [1, 2, 3]).1 i =
        peekG 1 (putsG 1 (⟨fun _ => 0, 0⟩ : RingG Nat) [1, 2, 3]).1 i) ∧
    equiv2 (⟨0, 0⟩ : Ring2S Nat) ⟨fun _ => 0, 0⟩ ∧
    ((puts2 (⟨0, 0⟩ : Ring2S Nat) [1, 2, 3]).2 =
        (putsG 2 (⟨fun _ => 0, 0⟩ : RingG Nat) [1, 2, 3]).2 ∧
      front2 (puts2 (⟨0, 0⟩ : Ring2S Nat) [1, 2, 3]).1 =
        frontG (putsG 2 (⟨fun _ => 0, 0⟩ : RingG Nat) [1, 2, 3]).1 ∧
      ∀ i, i < 2 → peek2 (puts2 (⟨0, 0⟩ : Ring2S Nat) [1, 2, 3]).1 i =
        peekG 2 (putsG 2 (⟨fun _ => 0, 0⟩ : RingG Nat) [1, 2, 3]).1 i) :=
  ⟨⟨rfl, rfl⟩, C6_spec_equiv.1 Nat ⟨0⟩ ⟨fun _ => 0, 0⟩ [1, 2, 3] ⟨rfl, rfl⟩,
    ⟨by decide, rfl, rfl⟩, C6_spec_equiv.2 Nat ⟨0, 0⟩ ⟨fun _ => 0, 0⟩ [1, 2, 3]
      ⟨by decide, rfl, rfl⟩⟩

/-- C7: UTF-8 encode/decode round-trips on the code points
`0x61 ('a'), 0xA3 ('£'), 0x3BB ('λ'), 0x10102, 0x1002E`; `encode` reports
success for each, and `decode` consumes exactly the emitted bytes. -/
theorem C7_utf8_roundtrip :
    (decodeS (encodeS 0x61).1 = (0x61, []) ∧ (encodeS 0x61).2 = true) ∧
    (decodeS (encodeS 0xa3).1 = (0xa3, []) ∧ (encodeS 0xa3).2 = true) ∧
    (decodeS (encodeS 0x3bb).1 = (0x3bb, []) ∧ (encodeS 0x3bb).2 = true) ∧
    (decodeS (encodeS 0x10102).1 = (0x10102, []) ∧ (encodeS 0x10102).2 = true) ∧
    (decodeS (encodeS 0x1002e).1 = (0x1002e, []) ∧ (encodeS 0x1002e).2 = true) := by
  decide

/-- C9: the C-string overload `SymPool::sym(const char*)` maps a null pointer
to the default-constructed `Sym()` (the zero word) and leaves the pool — hash
set and arena — untouched. -/
theorem C9_sym_null (base : Nat → Nat) (P : PoolS) :
    symCstrS base P none = (P, 0) := rfl

/-- C10: evaluating the constructor on the failing input — a BOM followed by
`'a'` — shows the BOM is consumed (the lookahead front is `'a'`) but the peek
position ends at row 1, column 2, contradicting the claim and the
constructor's own `assert(peek_.col == 1)`. -/
theorem C10_eval :
    (lexInitS 1 [0xef, 0xbb, 0xbf, 0x61]).peek = ⟨1, 2⟩ ∧
    peekG 1 (lexInitS 1 [0xef, 0xbb, 0xbf, 0x61]).ahead 0 = 0x61 := by
  decide

/-- C4 counterexample: input `'a'` followed by a BOM and `'b'` (`K = 1`).
`next()` consumes the ordinary character `'a'` (neither newline nor EOF), the
ring's new front is the BOM (also neither newline nor EOF), yet the Position
is left unchanged at (1,1) — the claim's "otherwise it increments the column"
fails. -/
theorem C4_cex :
    (nextS 1 (lexInitS 1 [0x61, 0xef, 0xbb, 0xbf, 0x62])).1 = 0x61 ∧
    (0x61 : Nat) ≠ NLv ∧ (0x61 : Nat) ≠ EoFv ∧
    peekG 1 (nextS 1 (lexInitS 1 [0x61, 0xef, 0xbb, 0xbf, 0x62])).2.ahead 0 = BOMv ∧
    BOMv ≠ NLv ∧ BOMv ≠ EoFv ∧
    (lexInitS 1 [0x61, 0xef, 0xbb, 0xbf, 0x62]).peek = ⟨1, 1⟩ ∧
    (nextS 1 (lexInitS 1 [0x61, 0xef, 0xbb, 0xbf, 0x62])).2.peek = ⟨1, 1⟩ := by
  decide

/-- C4 (amended): `next()` returns the current front of the lookahead ring,
pushes one freshly decoded code point, sets the in-progress location's finis
to the pre-call peek position (the position of the code point just consumed),
and advances the Position according to the code point at the ring's front
*after* the push: a newline increments the row and zeroes the column, EOF
*or the BOM `U+FEFF`* leaves the Position unchanged, anything else increments
the column. -/
theorem C4_amended (K : Nat) (L : LexerS) (hK : L.ahead.first < K) :
    (nextS K L).1 = peekG K L.ahead 0 ∧
    (nextS K L).2.ahead = (putG K L.ahead (decodeS L.stream).1).2 ∧
    (nextS K L).2.stream = (decodeS L.stream).2 ∧
    (nextS K L).2.locFinis = L.peek ∧
    (nextS K L).2.locBegin = L.locBegin ∧
    (nextS K L).2.peek =
      (if peekG K (nextS K L).2.ahead 0 = NLv then ⟨u16inc L.peek.row, 0⟩
        else if peekG K (nextS K L).2.ahead 0 = EoFv ∨ peekG K (nextS K L).2.ahead 0 = BOMv
          then L.peek
        else ⟨L.peek.row, u16inc L.peek.col⟩) := by
  have h2 : (putG K L.ahead (decodeS L.stream).1).2.first < K := putG_first_lt _ _ _ hK
  refine ⟨(peekG_zero K L.ahead hK).symm, rfl, rfl, rfl, rfl, ?_⟩
  show (if frontG (putG K L.ahead (decodeS L.stream).1).2 = NLv then _ else _) = _
  rw [show (nextS K L).2.ahead = (putG K L.ahead (decodeS L.stream).1).2 from rfl,
    peekG_zero K _ h2]

/-- C4 witness: the amended `next()` characterization evaluated on a concrete
lexer state. -/
theorem C4_witness :
    lexSmall.ahead.first < 1 ∧
    ((nextS 1 lexSmall).1 = peekG 1 lexSmall.ahead 0 ∧
      (nextS 1 lexSmall).2.ahead = (putG 1 lexSmall.ahead (decodeS lexSmall.stream).1).2 ∧
      (nextS 1 lexSmall).2.stream = (decodeS lexSmall.stream).2 ∧
      (nextS 1 lexSmall).2.locFinis = lexSmall.peek ∧
      (nextS 1 lexSmall).2.locBegin = lexSmall.locBegin ∧
      (nextS 1 lexSmall).2.peek =
        (if peekG 1 (nextS 1 lexSmall).2.ahead 0 = NLv then ⟨u16inc lexSmall.peek.row, 0⟩
          else if peekG 1 (nextS 1 lexSmall).2.ahead 0 = EoFv ∨
              peekG 1 (nextS 1 lexSmall).2.ahead 0 = BOMv
            then lexSmall.peek
          else ⟨lexSmall.peek.row, u16inc lexSmall.peek.col⟩)) :=
  ⟨by decide, C4_amended 1 lexSmall (by decide)⟩

theorem land7_eq_mod (x : Nat) : x &&& 7 = x % 8 := by
  have := Nat.and_pow_two_sub_one_eq_mod x 3
  norm_num at this
  exact this

theorem land_high (x k : Nat) (hk : k ≤ 64) (hx : x < 2 ^ 64) :
    x &&& (2 ^ 64 - 2 ^ k) = 2 ^ k * (x / 2 ^ k) := by
  have hmask : 2 ^ 64 - 2 ^ k = 2 ^ k * (2 ^ (64 - k) - 1) := by
    rw [Nat.mul_sub, mul_one, ← pow_add]
    congr 2
    omega
  apply Nat.eq_of_testBit_eq
  intro i
  rw [Nat.testBit_land, hmask, Nat.testBit_mul_pow_two, Nat.testBit_mul_pow_two,
    Nat.testBit_two_pow_sub_one]
  by_cases hki : k ≤ i
  · by_cases h64 : i < 64
    · have hd : (x / 2 ^ k).testBit (i - k) = x.testBit i := by
        have hik : k + (i - k) = i := by omega
        rw [Nat.testBit_to_div_mod, Nat.testBit_to_div_mod, Nat.div_div_eq_div_mul,
          ← pow_add, hik]
      simp [hki, hd, show i - k < 64 - k by omega]
    · have h1 : x.testBit i = false := Nat.testBit_lt_two_pow
        (lt_of_lt_of_le hx (Nat.pow_le_pow_right (by omega) (by omega)))
      have h2 : (x / 2 ^ k).testBit (i - k) = false := by
        apply Nat.testBit_lt_two_pow
        apply Nat.lt_of_lt_of_le (Nat.div_lt_of_lt_mul ?_) (le_refl _)
        · calc x < 2 ^ 64 := hx
            _ = 2 ^ k * 2 ^ (64 - k) := by rw [← pow_add]; congr 1; omega
            _ ≤ 2 ^ k * 2 ^ (i - k) := by
                apply Nat.mul_le_mul_left
                exact Nat.pow_le_pow_right (by omega) (by omega)
      simp [h1, h2]
  · simp [hki]

theorem alignC_two_pow (i k : Nat) (hk : k ≤ 64) (h : i + 2 ^ k ≤ 2 ^ 64) :
    alignC i (2 ^ k) = 2 ^ k * ((i + (2 ^ k - 1)) / 2 ^ k) := by
  have hp : 0 < 2 ^ k := Nat.pos_pow_of_pos k (by omega)
  unfold alignC
  rw [Nat.mod_eq_of_lt (by omega)]
  exact land_high _ _ hk (by omega)

theorem alignC_facts (i k : Nat) (hk : k ≤ 64) (h : i + 2 ^ k ≤ 2 ^ 64) :
    i ≤ alignC i (2 ^ k) ∧ alignC i (2 ^ k) ≤ i + (2 ^ k - 1) ∧
      alignC i (2 ^ k) % 2 ^ k = 0 := by
  have hp : 0 < 2 ^ k := Nat.pos_pow_of_pos k (by omega)
  rw [alignC_two_pow i k hk h]
  have hd := Nat.div_add_mod (i + (2 ^ k - 1)) (2 ^ k)
  have hm : (i + (2 ^ k - 1)) % 2 ^ k < 2 ^ k := Nat.mod_lt _ hp
  refine ⟨by omega, by omega, Nat.mul_mod_right _ _⟩

theorem alignC8_facts (i : Nat) (h : i + 8 ≤ 2 ^ 64) :
    i ≤ alignC i 8 ∧ alignC i 8 ≤ i + 7 ∧ alignC i 8 % 8 = 0 := by
  have h8 : (8 : Nat) = 2 ^ 3 := by norm_num
  rw [h8]
  have := alignC_facts i 3 (by omega) (by norm_num; omega)
  norm_num at this ⊢
  exact this

/-- C8 counterexample: with page size 16, after `allocate(1, 1)` the call
`allocate(15, 8)` passes the unaligned fit check (1 + 15 = 16), is then
aligned to offset 8 of the 16-byte page, and so spans bytes 8..23 — past the
page's end. -/
theorem C8_cex :
    (allocateS ((allocateS (arenaNew 16) 1 1).1) 15 8).2 = some (1, 8) ∧
    (8 : Nat) % 8 = 0 ∧
    (allocateS ((allocateS (arenaNew 16) 1 1).1) 15 8).1.back.size = 16 ∧
    (allocateS ((allocateS (arenaNew 16) 1 1).1) 15 8).1.older.length = 1 ∧
    16 < 8 + 15 := by
  decide

/-- C8 (amended): every `allocate(num_bytes, align)` with `num_bytes > 0` and
`align = 2^k` returns an offset in the currently open page that is a multiple
of `align`; the `num_bytes` bytes lie within that page's bounds *precisely
when* a fresh page is opened or the *aligned* offset still fits
(`align(index) + num_bytes <= page.size`).  Because the fit check uses the
unaligned index, the in-page alignment adjustment otherwise pushes the
allocation up to `align - 1` bytes past the page's end. -/
theorem C8_amended (ar : ArenaS) (n k : Nat) (hn : 0 < n) (hk : k ≤ 64)
    (hbound : ar.index + n + 2 ^ k ≤ 2 ^ 64) :
    ∃ o, (allocateS ar n (2 ^ k)).2 = some ((allocateS ar n (2 ^ k)).1.older.length, o) ∧
      o % 2 ^ k = 0 ∧
      (o + n ≤ (allocateS ar n (2 ^ k)).1.back.size ↔
        (ar.back.size < ar.index + n ∨ alignC ar.index (2 ^ k) + n ≤ ar.back.size)) := by
  have hp : 0 < 2 ^ k := Nat.pos_pow_of_pos k (by omega)
  have hmod : (ar.index + n) % 2 ^ 64 = ar.index + n := Nat.mod_eq_of_lt (by omega)
  have hmod2 : (ar.index + n) % 18446744073709551616 = ar.index + n := hmod
  obtain ⟨ha1, ha2, ha3⟩ := alignC_facts ar.index k hk (by omega)
  by_cases hfit : ar.back.size < ar.index + n
  · refine ⟨0, ?_, Nat.zero_mod _, ?_⟩
    · simp [allocateS, if_neg (by omega : ¬ n = 0), hmod, hmod2, hfit]
    · refine iff_of_true ?_ (Or.inl hfit)
      simp [allocateS, if_neg (by omega : ¬ n = 0), hmod, hmod2, hfit]
  · refine ⟨alignC ar.index (2 ^ k), ?_, ha3, ?_⟩
    · simp [allocateS, if_neg (by omega : ¬ n = 0), hmod, hmod2, hfit]
    · simp only [allocateS, if_neg (show ¬ n = 0 by omega), hmod, hmod2, if_neg hfit]
      exact ⟨fun h => Or.inr h, fun h => by
        rcases h with h | h
        · omega
        · exact h⟩

/-- C8 witness: the amended statement evaluated on a concrete arena
(page size 16, one prior 1-byte allocation, request `allocate(8, 8)`). -/
theorem C8_witness :
    0 < 8 ∧ 3 ≤ 64 ∧
    (allocateS (arenaNew 16) 1 1).1.index + 8 + 2 ^ 3 ≤ 2 ^ 64 ∧
    (∃ o, (allocateS ((allocateS (arenaNew 16) 1 1).1) 8 (2 ^ 3)).2 =
        some ((allocateS ((allocateS (arenaNew 16) 1 1).1) 8 (2 ^ 3)).1.older.length, o) ∧
      o % 2 ^ 3 = 0 ∧
      (o + 8 ≤ (allocateS ((allocateS (arenaNew 16) 1 1).1) 8 (2 ^ 3)).1.back.size ↔
        ((allocateS (arenaNew 16) 1 1).1.back.size <
            (allocateS (arenaNew 16) 1 1).1.index + 8 ∨
          alignC (allocateS (arenaNew 16) 1 1).1.index (2 ^ 3) + 8 ≤
            (allocateS (arenaNew 16) 1 1).1.back.size))) :=
  ⟨by decide, by decide, by decide,
    C8_amended (allocateS (arenaNew 16) 1 1).1 8 3 (by decide) (by decide) (by decide)⟩


theorem lor_add_of_lt (a b n : Nat) (h : a < 2 ^ n) :
    a ||| b * 2 ^ n = a + b * 2 ^ n := by
  rw [Nat.lor_comm, Nat.mul_comm b (2 ^ n), ← Nat.mul_add_lt_is_or h b]
  ring

theorem sumB_factor (bs : List Nat) (kk : Nat) :
    sumB bs kk = 2 ^ (8 * kk) * sumB bs 0 := by
  induction bs generalizing kk with
  | nil => simp [sumB]
  | cons b bs ih =>
    rw [sumB, sumB, ih (kk + 1), ih 1]
    ring

theorem packAux_sum (bs : List Nat) (kk ptr : Nat) (hcl : ∀ b ∈ bs, b < 128)
    (hlen : 8 * (kk + bs.length) ≤ 64) (hptr : ptr < 2 ^ (8 * kk)) :
    packShortAux bs (8 * kk) ptr = ptr + sumB bs kk := by
  induction bs generalizing kk ptr with
  | nil => simp [packShortAux, sumB]
  | cons b bs ih =>
    have hb : b < 128 := hcl b (List.mem_cons_self b bs)
    rw [packShortAux]
    have h1 : u64ofChar b = b := if_pos hb
    have h2 : b <<< (8 * kk) = b * 2 ^ (8 * kk) := Nat.shiftLeft_eq b (8 * kk)
    have hpow : (128 : Nat) * 2 ^ (8 * kk) = 2 ^ (8 * kk + 7) := by
      rw [pow_add]; ring
    have h3 : b * 2 ^ (8 * kk) < 2 ^ 64 := by
      calc b * 2 ^ (8 * kk) < 128 * 2 ^ (8 * kk) :=
            (Nat.mul_lt_mul_right (Nat.pos_pow_of_pos _ (by omega))).mpr hb
        _ = 2 ^ (8 * kk + 7) := hpow
        _ ≤ 2 ^ 64 := Nat.pow_le_pow_right (by omega) (by simp at hlen; omega)
    have h4 : (u64ofChar b <<< (8 * kk)) % 2 ^ 64 = b * 2 ^ (8 * kk) := by
      rw [h1, h2, Nat.mod_eq_of_lt h3]
    rw [h4, lor_add_of_lt ptr b (8 * kk) hptr]
    have h5 : 8 * kk + 8 = 8 * (kk + 1) := by ring
    have h6 : ptr + b * 2 ^ (8 * kk) < 2 ^ (8 * (kk + 1)) := by
      have hm : b * 2 ^ (8 * kk) ≤ 127 * 2 ^ (8 * kk) :=
        Nat.mul_le_mul_right _ (by omega)
      have hp : (0:Nat) < 2 ^ (8 * kk) := Nat.pos_pow_of_pos _ (by omega)
      have : ptr + b * 2 ^ (8 * kk) < 128 * 2 ^ (8 * kk) := by omega
      calc ptr + b * 2 ^ (8 * kk) < 2 ^ (8 * kk + 7) := by rw [← hpow]; exact this
        _ ≤ 2 ^ (8 * (kk + 1)) := Nat.pow_le_pow_right (by omega) (by omega)
    rw [h5, ih (kk + 1) _ (fun x hx => hcl x (List.mem_cons_of_mem b hx))
      (by simp at hlen ⊢; omega) h6, sumB]
    ring

theorem packShort_clean (s : List Nat) (h7 : s.length ≤ 7)
    (hcl : ∀ b ∈ s, b < 128) : packShort s = s.length + sumB s 1 := by
  have : packShortAux s (8 * 1) s.length = s.length + sumB s 1 :=
    packAux_sum s 1 s.length hcl (by omega) (by norm_num; omega)
  simpa [packShort] using this

theorem byte_of_add_sumB (bs : List Nat) : ∀ (kk j ptr : Nat), (∀ b ∈ bs, b < 128) →
    ptr < 2 ^ (8 * kk) → j < bs.length →
    ((ptr + sumB bs kk) >>> (8 * (kk + j))) % 256 = bs.getD j 0 := by
  induction bs with
  | nil => intro kk j ptr _ _ hj; simp at hj
  | cons b bs ih =>
    intro kk j ptr hcl hptr hj
    have hb : b < 128 := hcl b (List.mem_cons_self b bs)
    have hpos : (0:Nat) < 2 ^ (8 * kk) := Nat.pos_pow_of_pos _ (by omega)
    have hS : sumB (b :: bs) kk = 2 ^ (8 * kk) * (b + 256 * sumB bs 0) := by
      have e1 : 8 * (kk + 1) = 8 * kk + 8 := by ring
      rw [sumB, sumB_factor bs (kk + 1), e1, pow_add]
      norm_num
      ring
    cases j with
    | zero =>
      rw [Nat.shiftRight_eq_div_pow, hS]
      have e2 : 8 * (kk + 0) = 8 * kk := by ring
      rw [e2, Nat.add_mul_div_left ptr _ hpos, Nat.div_eq_of_lt hptr]
      simp [Nat.add_mul_mod_self_left, Nat.mod_eq_of_lt (show b < 256 by omega)]
    | succ j =>
      have e3 : ptr + sumB (b :: bs) kk = (ptr + b * 2 ^ (8 * kk)) + sumB bs (kk + 1) := by
        rw [sumB]; ring
      have e4 : kk + (j + 1) = (kk + 1) + j := by ring
      have h6 : ptr + b * 2 ^ (8 * kk) < 2 ^ (8 * (kk + 1)) := by
        have hm : b * 2 ^ (8 * kk) ≤ 127 * 2 ^ (8 * kk) :=
          Nat.mul_le_mul_right _ (by omega)
        have e5 : 8 * (kk + 1) = 8 * kk + 7 + 1 := by ring
        have : (2:Nat) ^ (8 * kk + 7) = 128 * 2 ^ (8 * kk) := by rw [pow_add]; ring
        rw [e5, pow_succ]
        have h128 : ptr + b * 2 ^ (8 * kk) < 128 * 2 ^ (8 * kk) := by omega
        have : 128 * 2 ^ (8 * kk) ≤ 2 ^ (8 * kk + 7) * 2 := by
          rw [this]; omega
        omega
      rw [e3, e4, ih (kk + 1) j _ (fun x hx => hcl x (List.mem_cons_of_mem b hx)) h6
        (by simpa using hj)]
      simp [List.getD]

theorem land7_len (s : List Nat) (h6 : s.length ≤ 6)
    (hcl : ∀ b ∈ s, b < 128) : packShort s &&& 7 = s.length := by
  rw [land7_eq_mod, packShort_clean s (by omega) hcl, sumB_factor s 1]
  have h8 : (2:Nat) ^ (8 * 1) = 256 := by norm_num
  rw [h8]
  omega

theorem shortView_packShort (s : List Nat) (h6 : s.length ≤ 6)
    (hcl : ∀ b ∈ s, b < 128) : shortView (packShort s) = s := by
  unfold shortView
  rw [land7_len s h6 hcl]
  apply List.ext_getElem (by simp)
  intro i hi1 hi2
  simp only [List.getElem_map, List.getElem_range]
  rw [packShort_clean s (by omega) hcl]
  have hcomm : 8 * (i + 1) = 8 * (1 + i) := by ring
  rw [hcomm, byte_of_add_sumB s 1 i s.length hcl (by norm_num; omega)
    (by simpa using hi2)]
  exact List.getD_eq_getElem s 0 (by simpa using hi2)

theorem packShort_ne_zero (s : List Nat) (h1 : s ≠ []) (h6 : s.length ≤ 6)
    (hcl : ∀ b ∈ s, b < 128) : packShort s ≠ 0 := by
  intro h
  have h2 := land7_len s h6 hcl
  rw [h] at h2
  simp at h2
  exact h1 (List.eq_nil_of_length_eq_zero h2.symm)

theorem symS_short (base : Nat → Nat) (P : PoolS) (s : List Nat) (h1 : s ≠ [])
    (h6 : s.length ≤ 6) : symS base P s = (P, packShort s) := by
  unfold symS
  rw [if_neg h1, if_pos (by simp [shortStringBytes]; omega)]

theorem viewS_short (base : Nat → Nat) (P : PoolS) (s : List Nat) (h1 : s ≠ [])
    (h6 : s.length ≤ 6) (hcl : ∀ b ∈ s, b < 128) :
    viewS base P (packShort s) = s := by
  unfold viewS
  rw [if_neg (packShort_ne_zero s h1 h6 hcl)]
  have hl : packShort s &&& 7 = s.length := land7_len s h6 hcl
  have hn0 : packShort s &&& 7 ≠ 0 := by
    rw [hl]
    intro h
    exact h1 (List.eq_nil_of_length_eq_zero h)
  rw [if_pos hn0]
  exact shortView_packShort s h6 hcl

theorem symS_long_fresh (base : Nat → Nat) (s : List Nat) (h7 : 6 < s.length)
    (hL : s.length < 2 ^ 62) :
    symS base poolNew s =
      (⟨⟨[⟨0, 0⟩], ⟨max 1048576 (8 + s.length + 1), 8⟩, 1048576, 8 + s.length + 1⟩,
        [((1, 0), s)]⟩, base 1 + 0) := by
  have h1 : s ≠ [] := by
    intro h
    rw [h] at h7
    simp at h7
  have hL2 : s.length < 4611686018427387904 := by
    have h62 : (2:Nat) ^ 62 = 4611686018427387904 := by norm_num
    omega
  have hm : (0 + (8 + s.length + 1)) % 2 ^ 64 = 8 + s.length + 1 := by
    have h64 : (2:Nat) ^ 64 = 18446744073709551616 := by norm_num
    rw [Nat.zero_add, h64]
    exact Nat.mod_eq_of_lt (by omega)
  have hm2 : (0 + (8 + s.length + 1)) % 18446744073709551616 = 8 + s.length + 1 := hm
  unfold symS
  rw [if_neg h1, if_neg (by simp [shortStringBytes]; omega)]
  simp only [poolNew, arenaNew, stateS, allocateS, shortStringBytes, hm, hm2]
  norm_num
  omega

theorem symS_empty (base : Nat → Nat) (P : PoolS) : symS base P [] = (P, 0) := by
  simp [symS]

theorem viewS_heap (base : Nat → Nat) (P : PoolS) (s : List Nat)
    (he : P.entries = [((1, 0), s)]) (hb8 : base 1 % 8 = 0) (hb0 : 0 < base 1) :
    viewS base P (base 1 + 0) = s := by
  unfold viewS
  rw [if_neg (by omega)]
  have h7 : (base 1 + 0) &&& 7 = 0 := by
    rw [land7_eq_mod]
    omega
  rw [if_neg (by rw [h7]; simp), he]
  simp [List.find?]

theorem allocateS_loc (ar : ArenaS) (n : Nat) (hn : 0 < n)
    (hw : ar.index + n < 2 ^ 64) :
    (allocateS ar n 8).2 =
      some (if ar.back.size < ar.index + n then (ar.older.length + 1, 0)
            else (ar.older.length, alignC ar.index 8)) := by
  have hm : (ar.index + n) % 2 ^ 64 = ar.index + n := Nat.mod_eq_of_lt hw
  have hm2 : (ar.index + n) % 18446744073709551616 = ar.index + n := hm
  unfold allocateS
  rw [if_neg (by omega)]
  by_cases hf : ar.back.size < ar.index + n
  · simp [hm, hm2, hf]
  · simp [hm, hm2, hf]

theorem symS_dup_state (base : Nat → Nat) (P : PoolS) (s : List Nat) (h7 : 6 < s.length)
    (he : P.entries = [((1, 0), s)])
    (hw : P.strings.index + (8 + s.length + 1) < 2 ^ 64) :
    symS base P s =
      (⟨if P.strings.back.size < P.strings.index + (8 + s.length + 1)
        then ⟨P.strings.older ++ [P.strings.back],
              ⟨max P.strings.pageSize (8 + s.length + 1), 8⟩, P.strings.pageSize, 0⟩
        else P.strings, P.entries⟩, base 1 + 0) := by
  have h1 : s ≠ [] := by
    intro h
    rw [h] at h7
    simp at h7
  have hm : (P.strings.index + (8 + s.length + 1)) % 2 ^ 64 =
      P.strings.index + (8 + s.length + 1) := Nat.mod_eq_of_lt hw
  have hm2 : (P.strings.index + (8 + s.length + 1)) % 18446744073709551616 =
      P.strings.index + (8 + s.length + 1) := hm
  unfold symS
  rw [if_neg h1, if_neg (by simp [shortStringBytes]; omega)]
  simp only [shortStringBytes, allocateS, stateS, deallocS, hm, hm2,
    if_neg (show ¬ 8 + s.length + 1 = 0 by omega), he]
  by_cases hf : P.strings.back.size < P.strings.index + (8 + s.length + 1)
  · simp only [if_pos hf]
    have hfind : List.find? (fun e => e.2 == s) [(((1:Nat), (0:Nat)), s)] =
        some ((1, 0), s) := by simp [List.find?]
    simp only [hfind]
    have hne : ¬ P.strings.older.length + 1 = (P.strings.older ++ [P.strings.back]).length + 1 := by
      simp
    simp [hne]
  · simp only [if_neg hf]
    have hfind : List.find? (fun e => e.2 == s) [(((1:Nat), (0:Nat)), s)] =
        some ((1, 0), s) := by simp [List.find?]
    simp only [hfind]
    simp

theorem symS_new (base : Nat → Nat) (P : PoolS) (s t : List Nat) (h7 : 6 < t.length)
    (he : P.entries = [((1, 0), s)]) (hne : t ≠ s)
    (hw : P.strings.index + (8 + t.length + 1) < 2 ^ 64) :
    (symS base P t).2 =
      (if P.strings.back.size < P.strings.index + (8 + t.length + 1)
       then base (P.strings.older.length + 1) + 0
       else base P.strings.older.length + alignC P.strings.index 8) := by
  have h1 : t ≠ [] := by
    intro h
    rw [h] at h7
    simp at h7
  unfold symS
  rw [if_neg h1, if_neg (by simp [shortStringBytes]; omega)]
  have hloc := allocateS_loc P.strings (8 + t.length + 1) (by omega) hw
  simp only [shortStringBytes] at hloc ⊢
  rw [hloc]
  have hst : (s == t) = false := beq_eq_false_iff_ne.mpr fun h => hne h.symm
  have hfind : List.find? (fun e => e.2 == t) [(((1:Nat), (0:Nat)), s)] = none := by
    simp [List.find?, hst]
  rw [he]
  simp only [hfind]
  by_cases hf : P.strings.back.size < P.strings.index + (8 + t.length + 1)
  · simp [hf]
  · simp [hf]

theorem allocateS_some (ar : ArenaS) (n a : Nat) (hn : n ≠ 0) :
    ∃ ar2 loc, allocateS ar n a = (ar2, some loc) := by
  unfold allocateS
  rw [if_neg hn]
  exact ⟨_, _, rfl⟩

theorem symS_long_val (base : Nat → Nat) (P : PoolS) (s : List Nat) (h7 : 6 < s.length)
    (he : P.entries = []) :
    ∃ ar2 loc, symS base P s = (⟨ar2, [(loc, s)]⟩, base loc.1 + loc.2) := by
  have h1 : s ≠ [] := by
    intro h
    rw [h] at h7
    simp at h7
  unfold symS
  rw [if_neg h1, if_neg (by simp [shortStringBytes]; omega)]
  obtain ⟨ar2, loc, halloc⟩ :=
    allocateS_some P.strings (8 + s.length + 1) shortStringBytes (by omega)
  have halloc2 : (allocateS P.strings (8 + s.length + 1) shortStringBytes).2 = some loc := by
    rw [halloc]
  simp only [shortStringBytes] at halloc2 ⊢
  rw [halloc2, he]
  exact ⟨(allocateS P.strings (8 + s.length + 1) 8).1, loc, by simp⟩

theorem symS_dup_val (base : Nat → Nat) (P : PoolS) (s : List Nat) (h7 : 6 < s.length)
    (loc : Nat × Nat) (he : P.entries = [(loc, s)]) :
    (symS base P s).2 = base loc.1 + loc.2 := by
  have h1 : s ≠ [] := by
    intro h
    rw [h] at h7
    simp at h7
  unfold symS
  rw [if_neg h1, if_neg (by simp [shortStringBytes]; omega)]
  obtain ⟨ar2, loc2, halloc⟩ :=
    allocateS_some P.strings (8 + s.length + 1) shortStringBytes (by omega)
  have halloc2 : (allocateS P.strings (8 + s.length + 1) shortStringBytes).2 = some loc2 := by
    rw [halloc]
  simp only [shortStringBytes] at halloc2 ⊢
  rw [halloc2, he]
  have hfind : List.find? (fun e => e.2 == s) [(loc, s)] = some (loc, s) := by
    simp [List.find?]
  simp only [hfind]

theorem symS_idem (base : Nat → Nat) (s : List Nat) :
    (symS base (symS base poolNew s).1 s).2 = (symS base poolNew s).2 := by
  by_cases hs0 : s = []
  · subst hs0
    simp only [symS_empty]
  · by_cases hs6 : s.length ≤ 6
    · simp only [symS_short base poolNew s hs0 hs6]
    · have h7 : 6 < s.length := by omega
      obtain ⟨ar2, loc, h1⟩ := symS_long_val base poolNew s h7 rfl
      rw [h1]
      exact symS_dup_val base _ s h7 loc rfl

/-- C1 (amended): for a single `SymPool` (fresh, page bases abstract but
injective, 8-aligned, nonzero): interning is idempotent —
`sym(s) == sym(s)` bit-identically — for *every* string `s`, dirty short
strings included.  For all strings `s`, `t` a 64-bit `size_t` can actually
denote (length `< 2^62`, so the size arithmetic in `allocate` cannot wrap),
provided every string short enough for the inline path
(length `<= word_size - 2`) consists of bytes `< 0x80`:
`sym(s) == sym(t)` iff `s == t`, and `view(sym(s)) == s` round-trips.
For a short string containing a byte `>= 0x80` the signed `char`
sign-extends inside the inline bit-packing and corrupts the word
(see the counterexample). -/
theorem C1_amended (base : Nat → Nat) (hinj : Function.Injective base)
    (hb8 : ∀ p, base p % 8 = 0) (hb0 : ∀ p, 0 < base p) :
    (∀ s : List Nat,
      (symS base (symS base poolNew s).1 s).2 = (symS base poolNew s).2) ∧
    (∀ s t : List Nat, (s.length ≤ 6 → ∀ b ∈ s, b < 128) →
      (t.length ≤ 6 → ∀ b ∈ t, b < 128) →
      s.length < 2 ^ 62 → t.length < 2 ^ 62 →
      ((symS base (symS base (symS base poolNew s).1 s).1 t).2 =
          (symS base poolNew s).2 ↔ s = t) ∧
      viewS base (symS base poolNew s).1 (symS base poolNew s).2 = s) := by
  refine ⟨symS_idem base, ?_⟩
  intro s t hsC htC hsL htL
  have h62 : (2:Nat) ^ 62 = 4611686018427387904 := by norm_num
  have h64 : (2:Nat) ^ 64 = 18446744073709551616 := by norm_num
  have hsL2 : s.length < 4611686018427387904 := by omega
  have htL2 : t.length < 4611686018427387904 := by omega
  have short_ne_heap : ∀ (u : List Nat) p o, u ≠ [] → u.length ≤ 6 →
      (∀ b ∈ u, b < 128) → o % 8 = 0 → packShort u ≠ base p + o := by
    intro u p o hu0 hu6 hucl ho8 h
    have hB := land7_len u hu6 hucl
    rw [h, land7_eq_mod] at hB
    have := hb8 p
    have hlen0 : u.length = 0 := by omega
    exact hu0 (List.eq_nil_of_length_eq_zero hlen0)
  by_cases hs0 : s = []
  · subst hs0
    simp only [symS_empty]
    refine ⟨?_, by simp [viewS]⟩
    by_cases ht0 : t = []
    · subst ht0
      simp [symS_empty]
    · by_cases ht6 : t.length ≤ 6
      · rw [symS_short base poolNew t ht0 ht6]
        exact iff_of_false (packShort_ne_zero t ht0 ht6 (htC ht6)) fun h => ht0 h.symm
      · rw [symS_long_fresh base t (by omega) htL]
        simp only
        exact iff_of_false (by have := hb0 1; omega) fun h => ht0 h.symm
  · by_cases hs6 : s.length ≤ 6
    · have hscl := hsC hs6
      simp only [symS_short base poolNew s hs0 hs6]
      refine ⟨?_, viewS_short base poolNew s hs0 hs6 hscl⟩
      by_cases ht0 : t = []
      · subst ht0
        rw [symS_empty]
        exact iff_of_false
          (fun h => packShort_ne_zero s hs0 hs6 hscl (by simpa using h.symm)) hs0
      · by_cases ht6 : t.length ≤ 6
        · rw [symS_short base poolNew t ht0 ht6]
          simp only
          constructor
          · intro h
            have h1 := shortView_packShort t ht6 (htC ht6)
            have h2 := shortView_packShort s hs6 hscl
            rw [h] at h1
            exact h2.symm.trans h1
          · intro h
            rw [h]
        · rw [symS_long_fresh base t (by omega) htL]
          simp only
          refine iff_of_false ?_ (by intro h; rw [h] at hs6; omega)
          exact fun h => short_ne_heap s 1 0 hs0 hs6 hscl (by omega) h.symm
    · have h7s : 6 < s.length := by omega
      have hP1 := symS_long_fresh base s h7s hsL
      have hw1 : 8 + s.length + 1 + (8 + s.length + 1) < 2 ^ 64 := by omega
      have hdup := symS_dup_state base
        (⟨⟨[⟨0, 0⟩], ⟨max 1048576 (8 + s.length + 1), 8⟩, 1048576, 8 + s.length + 1⟩,
          [((1, 0), s)]⟩ : PoolS) s h7s rfl (by simpa using hw1)
      simp only at hdup
      have main : ∀ (A : ArenaS), A.index + (8 + t.length + 1) < 2 ^ 64 →
          (A.older.length = 1 ∧ A.index = 8 + s.length + 1 ∨
            A.older.length = 2 ∧ A.index = 0) →
          ((symS base (⟨A, [((1, 0), s)]⟩ : PoolS) t).2 = base 1 + 0 ↔ s = t) := by
        intro A hwA hA
        by_cases ht0 : t = []
        · subst ht0
          rw [symS_empty]
          exact iff_of_false (by have := hb0 1; simp; omega) hs0
        · by_cases ht6 : t.length ≤ 6
          · rw [symS_short base _ t ht0 ht6]
            simp only
            refine iff_of_false ?_ (by intro h; rw [← h] at ht6; omega)
            exact short_ne_heap t 1 0 ht0 ht6 (htC ht6) (by omega)
          · by_cases hts : s = t
            · subst hts
              have hd2 := symS_dup_state base (⟨A, [((1, 0), s)]⟩ : PoolS) s h7s rfl
                (by simpa using hwA)
              rw [hd2]
              simp
            · have hnew := symS_new base (⟨A, [((1, 0), s)]⟩ : PoolS) s t (by omega) rfl
                (fun h => hts h.symm) (by simpa using hwA)
              rw [hnew]
              refine iff_of_false ?_ hts
              rcases hA with ⟨hL, hidx⟩ | ⟨hL, hidx⟩
              · simp only [hL, hidx]
                by_cases hc2 : A.back.size < 8 + s.length + 1 + (8 + t.length + 1)
                · rw [if_pos hc2]
                  intro h
                  have hbb : base (1 + 1) = base 1 := by omega
                  have := hinj hbb
                  omega
                · rw [if_neg hc2]
                  intro h
                  obtain ⟨hge, hle, hm8⟩ := alignC8_facts (8 + s.length + 1) (by omega)
                  omega
              · simp only [hL, hidx]
                have hal0 : alignC 0 8 = 0 := by
                  obtain ⟨ha1, ha2, ha3⟩ := alignC8_facts 0 (by norm_num)
                  omega
                by_cases hc2 : A.back.size < 0 + (8 + t.length + 1)
                · rw [if_pos hc2]
                  intro h
                  have hbb : base (2 + 1) = base 1 := by omega
                  have := hinj hbb
                  omega
                · rw [if_neg hc2]
                  rw [hal0]
                  intro h
                  have hbb : base 2 = base 1 := by omega
                  have := hinj hbb
                  omega
      rw [hP1, hdup]
      simp only
      refine ⟨?_, viewS_heap base _ s rfl (hb8 1) (hb0 1)⟩
      by_cases hc : (max 1048576 (8 + s.length + 1)) <
          8 + s.length + 1 + (8 + s.length + 1)
      · rw [if_pos hc]
        refine main _ (by simp; omega) (Or.inr ⟨by simp, rfl⟩)
      · rw [if_neg hc]
        refine main _ (by simp; omega) (Or.inl ⟨by simp, rfl⟩)


/-- C1 counterexample: `char` is signed, so `uintptr_t(s[i])` sign-extends:
interning the distinct 2-byte strings `"\x80\x01"` and `"\x80\xFF"` yields
bit-identical inline `Sym` words, and `view` returns `"\x80\xFF"` for both —
injectivity and the `view` round-trip of the claim fail. -/
theorem C1_cex :
    (symS base0 (symS base0 poolNew [128, 1]).1 [128, 255]).2 =
        (symS base0 poolNew [128, 1]).2 ∧
    ([128, 1] : List Nat) ≠ [128, 255] ∧
    viewS base0 (symS base0 poolNew [128, 1]).1 (symS base0 poolNew [128, 1]).2 ≠
      [128, 1] := by
  decide

/-- C1 witness: the amended statement evaluated at the concrete pool-base map
`base0`: idempotence on the dirty 1-byte string `"\x80"`,
injectivity/round-trip on `s = "abcdefg"` (heap path) and `t = "xy"`
(inline path). -/
theorem C1_witness :
    Function.Injective base0 ∧
    (symS base0 (symS base0 poolNew [128]).1 [128]).2 =
      (symS base0 poolNew [128]).2 ∧
    ((symS base0 (symS base0 (symS base0 poolNew [97, 98, 99, 100, 101, 102, 103]).1
          [97, 98, 99, 100, 101, 102, 103]).1 [120, 121]).2 =
        (symS base0 poolNew [97, 98, 99, 100, 101, 102, 103]).2 ↔
      [97, 98, 99, 100, 101, 102, 103] = [120, 121]) ∧
    viewS base0 (symS base0 poolNew [97, 98, 99, 100, 101, 102, 103]).1
        (symS base0 poolNew [97, 98, 99, 100, 101, 102, 103]).2 =
      [97, 98, 99, 100, 101, 102, 103] :=
  have hinj : Function.Injective base0 := fun a b h => by
    simp only [base0] at h
    omega
  have hmain := C1_amended base0 hinj (fun p => Nat.mul_mod_right 8 (p + 1))
    (fun p => by simp only [base0]; omega)
  have hpart := hmain.2 [97, 98, 99, 100, 101, 102, 103] [120, 121]
    (by decide) (by decide) (by decide) (by decide)
  ⟨hinj, hmain.1 [128], hpart.1, hpart.2⟩

/-- C2 counterexample: the 6-byte string `"\x80\x01AAAA"` does take the
inline path (pool and arena untouched) but does *not* round-trip through
`view`: the sign-extended `0x80` overwrites the higher packed bytes. -/
theorem C2_cex :
    (symS base0 poolNew [128, 1, 65, 65, 65, 65]).1 = poolNew ∧
    viewS base0 (symS base0 poolNew [128, 1, 65, 65, 65, 65]).1
        (symS base0 poolNew [128, 1, 65, 65, 65, 65]).2 ≠ [128, 1, 65, 65, 65, 65] := by
  decide

/-- C2 (amended): the inline/heap boundary sits at `word_size - 2`: a 6-byte
string takes the inline path (the pool, hash set and arena, is returned
unchanged — no allocation) and round-trips via `view` provided all its bytes
are `< 0x80`; a 7-byte string is stored in the pool's arena as a heap
`String` (a page is opened: the page list grows from 0 to 1 filled pages)
and round-trips via `view` for arbitrary byte values. -/
theorem C2_amended :
    (∀ (base : Nat → Nat) (P : PoolS) (s : List Nat), s.length = 6 →
      (∀ b ∈ s, b < 128) →
      symS base P s = (P, packShort s) ∧ viewS base P (packShort s) = s) ∧
    (∀ (base : Nat → Nat) (s : List Nat), s.length = 7 → base 1 % 8 = 0 → 0 < base 1 →
      (symS base poolNew s).1.strings.older.length = 1 ∧
      (symS base poolNew s).1.entries = [((1, 0), s)] ∧
      viewS base (symS base poolNew s).1 (symS base poolNew s).2 = s) := by
  constructor
  · intro base P s h6 hcl
    have h1 : s ≠ [] := by
      intro h
      rw [h] at h6
      simp at h6
    exact ⟨symS_short base P s h1 (by omega), viewS_short base P s h1 (by omega) hcl⟩
  · intro base s h7 hb8 hb0
    rw [symS_long_fresh base s (by omega) (by rw [h7]; norm_num)]
    exact ⟨by simp, rfl, viewS_heap base _ s rfl hb8 hb0⟩

/-- C2 witness: the amended statement evaluated at `base0` with the 6-byte
string `"abcdef"` and the 7-byte string `"abcdefg"`. -/
theorem C2_witness :
    (symS base0 poolNew [97, 98, 99, 100, 101, 102] =
        (poolNew, packShort [97, 98, 99, 100, 101, 102]) ∧
      viewS base0 poolNew (packShort [97, 98, 99, 100, 101, 102]) =
        [97, 98, 99, 100, 101, 102]) ∧
    ((symS base0 poolNew [97, 98, 99, 100, 101, 102, 103]).1.strings.older.length = 1 ∧
      (symS base0 poolNew [97, 98, 99, 100, 101, 102, 103]).1.entries =
        [((1, 0), [97, 98, 99, 100, 101, 102, 103])] ∧
      viewS base0 (symS base0 poolNew [97, 98, 99, 100, 101, 102, 103]).1
          (symS base0 poolNew [97, 98, 99, 100, 101, 102, 103]).2 =
        [97, 98, 99, 100, 101, 102, 103]) :=
  ⟨C2_amended.1 base0 poolNew _ (by decide) (by decide),
    C2_amended.2 base0 _ (by decide) (by decide) (by decide)⟩
